import Mathlib

/-!
Shallow embedding of the `bwt` (Binary Web Token) Go library.

Strings are modelled as `List Char`, byte sequences as `List Nat` with the
invariant that every byte is `< 256`.  External collaborators (the msgpack
codec, the SHA3-HMAC and Ed25519 primitives) are parameters of the
development, as the repository invokes them as black boxes.
-/

namespace BWT

/-! ## Base64url codec

Models Go `encoding/base64` with `RawURLEncoding` (URL alphabet, no
padding).  Go's decoder is non-strict (trailing padding bits are ignored)
and skips `\r`/`\n` characters; both behaviours are reproduced.
-/

def b64Chars : List Char :=
  "ABCDEFGHIJKLMNOPQRSTUVWXYZabcdefghijklmnopqrstuvwxyz0123456789-_".toList

def b64Char (n : Nat) : Char := b64Chars.getD n 'A'

def b64Index (c : Char) : Option Nat := b64Chars.findIdx? (fun d => d == c)

/-- Encoding: 3 input bytes become 4 alphabet characters; a remainder of 1
or 2 bytes becomes 2 or 3 characters (no padding). -/
def b64EncGroups : List Nat → List Char
  | [] => []
  | [a] => [b64Char (a / 4), b64Char (a % 4 * 16)]
  | [a, b] => [b64Char (a / 4), b64Char (a % 4 * 16 + b / 16), b64Char (b % 16 * 4)]
  | a :: b :: c :: rest =>
      b64Char (a / 4) :: b64Char (a % 4 * 16 + b / 16) ::
      b64Char (b % 16 * 4 + c / 64) :: b64Char (c % 64) :: b64EncGroups rest

/-- Decoding: 4 characters become 3 bytes; a final quantum of 1 character is
invalid, of 2 or 3 characters yields 1 or 2 bytes (trailing bits ignored,
matching Go's non-strict decoder). -/
def b64DecGroups : List Char → Option (List Nat)
  | [] => some []
  | [_] => none
  | [c1, c2] =>
      match b64Index c1, b64Index c2 with
      | some v1, some v2 => some [v1 * 4 + v2 / 16]
      | _, _ => none
  | [c1, c2, c3] =>
      match b64Index c1, b64Index c2, b64Index c3 with
      | some v1, some v2, some v3 => some [v1 * 4 + v2 / 16, v2 % 16 * 16 + v3 / 4]
      | _, _, _ => none
  | c1 :: c2 :: c3 :: c4 :: rest =>
      match b64Index c1, b64Index c2, b64Index c3, b64Index c4, b64DecGroups rest with
      | some v1, some v2, some v3, some v4, some tl =>
          some ((v1 * 4 + v2 / 16) :: (v2 % 16 * 16 + v3 / 4) :: (v3 % 4 * 64 + v4) :: tl)
      | _, _, _, _, _ => none

/-- Go's decoder writes the bytes of every quantum that decodes before the
first corrupt one and returns them alongside the error: partial prefix
plus an error flag (`true` models `CorruptInputError`, including a final
quantum of one character).  A quantum containing an invalid character
contributes no bytes; the quanta before it are kept. -/
def b64DecPartial : List Char → List Nat × Bool
  | [] => ([], false)
  | [_] => ([], true)
  | [c1, c2] =>
      match b64Index c1, b64Index c2 with
      | some v1, some v2 => ([v1 * 4 + v2 / 16], false)
      | _, _ => ([], true)
  | [c1, c2, c3] =>
      match b64Index c1, b64Index c2, b64Index c3 with
      | some v1, some v2, some v3 =>
          ([v1 * 4 + v2 / 16, v2 % 16 * 16 + v3 / 4], false)
      | _, _, _ => ([], true)
  | c1 :: c2 :: c3 :: c4 :: rest =>
      match b64Index c1, b64Index c2, b64Index c3, b64Index c4 with
      | some v1, some v2, some v3, some v4 =>
          let (tl, e) := b64DecPartial rest
          ((v1 * 4 + v2 / 16) :: (v2 % 16 * 16 + v3 / 4) :: (v3 % 4 * 64 + v4) :: tl, e)
      | _, _, _, _ => ([], true)

/-- `Encode` encodes a byte array into a base64url encoded string. -/
def Encode (b : List Nat) : List Char := b64EncGroups b

/-- `Decode` with the full return shape of Go's `DecodeString`: the
(partially) decoded bytes together with the error flag (Go's decoder
skips carriage returns and newlines).  The parser's call sites read both
components through multi-assignment. -/
def DecodePartial (s : List Char) : List Nat × Bool :=
  b64DecPartial (s.filter (fun c => c != Char.ofNat 13 && c != Char.ofNat 10))

/-- The success view of `DecodePartial`: the decoded bytes when there is
no error, and `none` on failure (`DecodePartial_agree` relates the two). -/
def Decode (s : List Char) : Option (List Nat) :=
  b64DecGroups (s.filter (fun c => c != Char.ofNat 13 && c != Char.ofNat 10))

theorem b64Index_b64Char : ∀ n < 64, b64Index (b64Char n) = some n := by decide

theorem b64Char_mem (n : Nat) (h : n < 64) : b64Char n ∈ b64Chars := by
  have hl : b64Chars.length = 64 := by decide
  rw [b64Char, List.getD_eq_getElem b64Chars 'A' (by omega)]
  exact List.getElem_mem _

theorem b64Chars_plain :
    ∀ c ∈ b64Chars, c ≠ '.' ∧ c ≠ Char.ofNat 13 ∧ c ≠ Char.ofNat 10 := by decide

theorem b64EncGroups_mem :
    ∀ (b : List Nat), (∀ x ∈ b, x < 256) → ∀ c ∈ b64EncGroups b, c ∈ b64Chars
  | [], _ => by simp [b64EncGroups]
  | [a], h => by
      have ha : a < 256 := h a (by simp)
      simp only [b64EncGroups, List.mem_cons, List.not_mem_nil, or_false]
      rintro c (rfl | rfl) <;> exact b64Char_mem _ (by omega)
  | [a, b], h => by
      have ha : a < 256 := h a (by simp)
      have hb : b < 256 := h b (by simp)
      simp only [b64EncGroups, List.mem_cons, List.not_mem_nil, or_false]
      rintro c (rfl | rfl | rfl) <;> exact b64Char_mem _ (by omega)
  | a :: b :: c :: rest, h => by
      have ha : a < 256 := h a (by simp)
      have hb : b < 256 := h b (by simp)
      have hc : c < 256 := h c (by simp)
      have ih := b64EncGroups_mem rest (fun x hx => h x (by simp [hx]))
      simp only [b64EncGroups, List.mem_cons]
      rintro d (rfl | rfl | rfl | rfl | hd)
      · exact b64Char_mem _ (by omega)
      · exact b64Char_mem _ (by omega)
      · exact b64Char_mem _ (by omega)
      · exact b64Char_mem _ (by omega)
      · exact ih d hd

theorem b64EncGroups_ne_nil : ∀ (a : Nat) (b : List Nat), b64EncGroups (a :: b) ≠ []
  | _, [] => by simp [b64EncGroups]
  | _, [_] => by simp [b64EncGroups]
  | _, _ :: _ :: _ => by simp [b64EncGroups]

theorem b64DecGroups_encGroups :
    ∀ (b : List Nat), (∀ x ∈ b, x < 256) → b64DecGroups (b64EncGroups b) = some b
  | [], _ => rfl
  | [a], h => by
      have ha : a < 256 := h a (by simp)
      simp only [b64EncGroups, b64DecGroups,
        b64Index_b64Char (a / 4) (by omega), b64Index_b64Char (a % 4 * 16) (by omega)]
      have e1 : a / 4 * 4 + a % 4 * 16 / 16 = a := by omega
      rw [e1]
  | [a, b], h => by
      have ha : a < 256 := h a (by simp)
      have hb : b < 256 := h b (by simp)
      simp only [b64EncGroups, b64DecGroups,
        b64Index_b64Char (a / 4) (by omega),
        b64Index_b64Char (a % 4 * 16 + b / 16) (by omega),
        b64Index_b64Char (b % 16 * 4) (by omega)]
      have e1 : a / 4 * 4 + (a % 4 * 16 + b / 16) / 16 = a := by omega
      have e2 : (a % 4 * 16 + b / 16) % 16 * 16 + b % 16 * 4 / 4 = b := by omega
      rw [e1, e2]
  | a :: b :: c :: rest, h => by
      have ha : a < 256 := h a (by simp)
      have hb : b < 256 := h b (by simp)
      have hc : c < 256 := h c (by simp)
      have ih := b64DecGroups_encGroups rest (fun x hx => h x (by simp [hx]))
      cases rest with
      | nil =>
          simp only [b64EncGroups, b64DecGroups,
            b64Index_b64Char (a / 4) (by omega),
            b64Index_b64Char (a % 4 * 16 + b / 16) (by omega),
            b64Index_b64Char (b % 16 * 4 + c / 64) (by omega),
            b64Index_b64Char (c % 64) (by omega)]
          have e1 : a / 4 * 4 + (a % 4 * 16 + b / 16) / 16 = a := by omega
          have e2 : (a % 4 * 16 + b / 16) % 16 * 16 + (b % 16 * 4 + c / 64) / 4 = b := by
            omega
          have e3 : (b % 16 * 4 + c / 64) % 4 * 64 + c % 64 = c := by omega
          rw [e1, e2, e3]
      | cons d ds =>
          have henc : b64EncGroups (a :: b :: c :: d :: ds) =
              b64Char (a / 4) :: b64Char (a % 4 * 16 + b / 16) ::
              b64Char (b % 16 * 4 + c / 64) :: b64Char (c % 64) ::
              b64EncGroups (d :: ds) := rfl
          rw [henc]
          rcases he : b64EncGroups (d :: ds) with _ | ⟨e1c, es⟩
          · exact absurd he (b64EncGroups_ne_nil d ds)
          · rw [he] at ih
            simp only [b64DecGroups,
              b64Index_b64Char (a / 4) (by omega),
              b64Index_b64Char (a % 4 * 16 + b / 16) (by omega),
              b64Index_b64Char (b % 16 * 4 + c / 64) (by omega),
              b64Index_b64Char (c % 64) (by omega), ih]
            have e1 : a / 4 * 4 + (a % 4 * 16 + b / 16) / 16 = a := by omega
            have e2 : (a % 4 * 16 + b / 16) % 16 * 16 + (b % 16 * 4 + c / 64) / 4 = b := by
              omega
            have e3 : (b % 16 * 4 + c / 64) % 4 * 64 + c % 64 = c := by omega
            rw [e1, e2, e3]

/-- Decoding inverts encoding on genuine byte sequences. -/
theorem Decode_Encode (b : List Nat) (h : ∀ x ∈ b, x < 256) :
    Decode (Encode b) = some b := by
  rw [Decode, Encode, List.filter_eq_self.mpr, b64DecGroups_encGroups b h]
  intro c hc
  have hmem := b64EncGroups_mem b h c hc
  have := b64Chars_plain c hmem
  simp only [bne_iff_ne, ne_eq, Bool.and_eq_true, decide_eq_true_eq]
  exact ⟨this.2.1, this.2.2⟩

theorem Encode_no_dot (b : List Nat) (h : ∀ x ∈ b, x < 256) : '.' ∉ Encode b := by
  intro hc
  exact (b64Chars_plain _ (b64EncGroups_mem b h _ hc)).1 rfl

theorem b64DecPartial_agree : ∀ (s : List Char),
    b64DecGroups s = (if (b64DecPartial s).2 = true then none else some (b64DecPartial s).1)
  | [] => rfl
  | [_] => rfl
  | [c1, c2] => by
      cases hi1 : b64Index c1 <;> cases hi2 : b64Index c2 <;>
        simp [b64DecGroups, b64DecPartial, hi1, hi2]
  | [c1, c2, c3] => by
      cases hi1 : b64Index c1 <;> cases hi2 : b64Index c2 <;> cases hi3 : b64Index c3 <;>
        simp [b64DecGroups, b64DecPartial, hi1, hi2, hi3]
  | c1 :: c2 :: c3 :: c4 :: rest => by
      have ih := b64DecPartial_agree rest
      rcases hp : b64DecPartial rest with ⟨tl, e⟩
      rw [hp] at ih
      cases hi1 : b64Index c1 <;> cases hi2 : b64Index c2 <;>
        cases hi3 : b64Index c3 <;> cases hi4 : b64Index c4 <;>
          simp [b64DecGroups, b64DecPartial, hi1, hi2, hi3, hi4, hp, ih] <;>
            cases e <;> simp_all

theorem b64DecPartial_enc (b : List Nat) (h : ∀ x ∈ b, x < 256) :
    b64DecPartial (b64EncGroups b) = (b, false) := by
  have hag := b64DecPartial_agree (b64EncGroups b)
  rw [b64DecGroups_encGroups b h] at hag
  rcases hp : b64DecPartial (b64EncGroups b) with ⟨tl, e⟩
  rw [hp] at hag
  cases e
  · have hbt : b = tl := by simpa using hag
    subst hbt
    rfl
  · simp at hag

/-- `Decode` is the success view of `DecodePartial`. -/
theorem DecodePartial_agree (s : List Char) :
    Decode s = (if (DecodePartial s).2 = true then none else some (DecodePartial s).1) :=
  b64DecPartial_agree _

theorem DecodePartial_Encode (b : List Nat) (h : ∀ x ∈ b, x < 256) :
    DecodePartial (Encode b) = (b, false) := by
  rw [DecodePartial, Encode, List.filter_eq_self.mpr, b64DecPartial_enc b h]
  intro c hc
  have hmem := b64EncGroups_mem b h c hc
  have := b64Chars_plain c hmem
  simp only [bne_iff_ne, ne_eq, Bool.and_eq_true, decide_eq_true_eq]
  exact ⟨this.2.1, this.2.2⟩

/-! ## String helpers

`splitDot` models Go `strings.Split(s, ".")`; `cutUnderscore` models
`strings.Cut(s, "_")` (split around the first underscore); `toUpperStr`
models `strings.ToUpper` on the ASCII range, which covers every
registered algorithm name. -/

def splitDot : List Char → List (List Char)
  | [] => [[]]
  | c :: rest =>
      if c = '.' then [] :: splitDot rest
      else
        match splitDot rest with
        | [] => [[c]]
        | p :: ps => (c :: p) :: ps

def cutUnderscore : List Char → List Char × List Char × Bool
  | [] => ([], [], false)
  | c :: rest =>
      if c = '_' then ([], rest, true)
      else
        let (l, r, ok) := cutUnderscore rest
        (c :: l, r, ok)

def toUpperStr (s : List Char) : List Char := s.map Char.toUpper

theorem splitDot_ne_nil (s : List Char) : splitDot s ≠ [] := by
  induction s with
  | nil => simp [splitDot]
  | cons c rest ih =>
      simp only [splitDot]
      split
      · simp
      · rcases h : splitDot rest with _ | ⟨p, ps⟩ <;> simp

theorem splitDot_no_dot (s : List Char) (h : '.' ∉ s) : splitDot s = [s] := by
  induction s with
  | nil => rfl
  | cons c rest ih =>
      have hc : c ≠ '.' := fun hcc => h (by simp [hcc])
      have hr : '.' ∉ rest := fun hrr => h (by simp [hrr])
      simp only [splitDot, if_neg hc, ih hr]

theorem splitDot_append (p rest : List Char) (hp : '.' ∉ p) :
    splitDot (p ++ '.' :: rest) = p :: splitDot rest := by
  induction p with
  | nil => simp [splitDot]
  | cons c cs ih =>
      have hc : c ≠ '.' := fun hcc => hp (by simp [hcc])
      have hcs : '.' ∉ cs := fun hrr => hp (by simp [hrr])
      simp only [List.cons_append, splitDot, if_neg hc, List.append_eq, ih hcs]

/-- Splitting a three-segment wire string recovers the segments. -/
theorem splitDot_wire (p a b : List Char) (hp : '.' ∉ p) (ha : '.' ∉ a) (hb : '.' ∉ b) :
    splitDot (p ++ '.' :: (a ++ '.' :: b)) = [p, a, b] := by
  rw [splitDot_append p _ hp, splitDot_append a _ ha, splitDot_no_dot b hb]

theorem cutUnderscore_bwt (n : List Char) :
    cutUnderscore ("BWT_".toList ++ n) = ("BWT".toList, n, true) := by
  simp [cutUnderscore, String.toList]

/-! ## Keys, algorithm errors and the Algorithm contract

Go keys are `any` values narrowed with a type assertion (`KeyAs`).  The
dynamic types that occur are `[]byte`, `ed25519.PublicKey` and
`ed25519.PrivateKey` (distinct named types in Go, so an assertion to one
never matches another); `other` stands for every further dynamic type. -/

inductive KeyV where
  | bytes (b : List Nat)
  | edPub (b : List Nat)
  | edPriv (b : List Nat)
  | other (tag : Nat)
  deriving DecidableEq, Repr

/-- Errors produced by the algorithm implementations
(`ErrHashUnavailable`, `ErrInvalidKeyType`, `ErrInvalidKey`,
`ErrTagInvalid`, `ErrWrongTag`). -/
inductive AErr where
  | hashUnavailable
  | invalidKeyType
  | invalidKey
  | tagInvalid
  | wrongTag
  deriving DecidableEq, Repr

/-- `KeyAs` for the target type `[]byte`: the type assertion succeeds only
on the `bytes` variant. -/
def keyAsBytes : KeyV → Except AErr (List Nat)
  | .bytes b => .ok b
  | _ => .error .invalidKeyType

/-- `KeyAs` for the target type `ed25519.PublicKey`. -/
def keyAsEdPub : KeyV → Except AErr (List Nat)
  | .edPub b => .ok b
  | _ => .error .invalidKeyType

/-- `KeyAs` for the target type `ed25519.PrivateKey`. -/
def keyAsEdPriv : KeyV → Except AErr (List Nat)
  | .edPriv b => .ok b
  | _ => .error .invalidKeyType

/-- The `Algorithm` interface: a name plus `Auth`/`Verify`.  The first
argument of both operations is the textual token context
(`"BWT_" + name`), the second the serialized claims body. -/
structure Algorithm where
  name : List Char
  auth : List Char → List Nat → KeyV → Except AErr (List Nat)
  verify : List Char → List Nat → KeyV → List Nat → Except AErr Unit

/-- `[]byte(s)` for the ASCII contexts used by the library. -/
def strBytes (s : List Char) : List Nat := s.map Char.toNat

/-- External cryptographic primitives, assumed correct (out of scope for
the repository): the three SHA3 HMACs keyed by `(key, message)`, and the
Ed25519 sign/verify pair.  Go's `ed25519.PrivateKey.Sign` with `Hash(0)`
is deterministic pure Ed25519, so `edSign` is a function. -/
structure CryptoPrims where
  hmac256 : List Nat → List Nat → List Nat
  hmac384 : List Nat → List Nat → List Nat
  hmac512 : List Nat → List Nat → List Nat
  edSign : List Nat → List Nat → List Nat
  edVerify : List Nat → List Nat → List Nat → Bool

/-- `hmacAlgo.Verify`: hash availability, key type assertion, tag length
against the hash output size, then constant-time comparison of the
recomputed MAC (`hmac.Equal` is comparison of the byte contents). -/
def hmacVerify (fn : List Nat → List Nat → List Nat) (size : Nat) (available : Bool)
    (ctx : List Char) (body : List Nat) (key : KeyV) (tag : List Nat) :
    Except AErr Unit :=
  if !available then .error .hashUnavailable
  else
    match keyAsBytes key with
    | .error e => .error e
    | .ok keyBytes =>
        if tag.length ≠ size then .error .tagInvalid
        else if tag = fn keyBytes (strBytes ctx ++ body) then .ok ()
        else .error .wrongTag

/-- `hmacAlgo.Auth`: the MAC of context and body under the byte key. -/
def hmacAuth (fn : List Nat → List Nat → List Nat) (available : Bool)
    (ctx : List Char) (body : List Nat) (key : KeyV) : Except AErr (List Nat) :=
  if !available then .error .hashUnavailable
  else
    match keyAsBytes key with
    | .error e => .error e
    | .ok keyBytes => .ok (fn keyBytes (strBytes ctx ++ body))

/-- One member of the keyed-hash family (`HS256`/`HS384`/`HS512`).
The SHA3 hashes are registered by the package import, so `available` is
`true` for the built-in instances. -/
def hmacAlgo (name : List Char) (fn : List Nat → List Nat → List Nat) (size : Nat) :
    Algorithm where
  name := name
  auth := hmacAuth fn true
  verify := hmacVerify fn size true

/-- `algoEd25519.Verify`: key type assertion, public key length (32), tag
length against the signature size (64), then the signature check. -/
def edAlgoVerify (verifyFn : List Nat → List Nat → List Nat → Bool)
    (ctx : List Char) (body : List Nat) (key : KeyV) (tag : List Nat) :
    Except AErr Unit :=
  match keyAsEdPub key with
  | .error e => .error e
  | .ok pk =>
      if pk.length ≠ 32 then .error .invalidKey
      else if tag.length ≠ 64 then .error .tagInvalid
      else if verifyFn pk (strBytes ctx ++ body) tag then .ok ()
      else .error .wrongTag

/-- `algoEd25519.Auth`: key type assertion, private key length (64), then
the deterministic signature. -/
def edAlgoAuth (signFn : List Nat → List Nat → List Nat)
    (ctx : List Char) (body : List Nat) (key : KeyV) : Except AErr (List Nat) :=
  match keyAsEdPriv key with
  | .error e => .error e
  | .ok sk =>
      if sk.length ≠ 64 then .error .invalidKey
      else .ok (signFn sk (strBytes ctx ++ body))

def edAlgo (P : CryptoPrims) : Algorithm where
  name := "EDDSA".toList
  auth := edAlgoAuth P.edSign
  verify := edAlgoVerify P.edVerify

/-- The registry state after both `init` functions have run: `GetAlgorithm`
upper-cases its argument and looks it up among the four built-ins (names
are stored upper-cased at registration). -/
def HS256 (P : CryptoPrims) : Algorithm := hmacAlgo "HS256".toList P.hmac256 32

def HS384 (P : CryptoPrims) : Algorithm := hmacAlgo "HS384".toList P.hmac384 48

def HS512 (P : CryptoPrims) : Algorithm := hmacAlgo "HS512".toList P.hmac512 64

def EdDSA (P : CryptoPrims) : Algorithm := edAlgo P

def GetAlgorithm (P : CryptoPrims) (alg : List Char) : Option Algorithm :=
  let u := toUpperStr alg
  if u = "HS256".toList then some (HS256 P)
  else if u = "HS384".toList then some (HS384 P)
  else if u = "HS512".toList then some (HS512 P)
  else if u = "EDDSA".toList then some (EdDSA P)
  else none

/-! ## Validator

Go's `Validator` carries a leeway, a swappable clock, a lazily cached
`now` (the zero `time.Time` is the "not yet cached" sentinel, modelled as
the integer 0) and a rule list.  The clock is modelled as a stream
`timeFunc : Nat → Int` indexed by a consultation counter `calls`, so that
"how often the time function was consulted" is observable.  Rules receive
the validator and may advance its time state through `Now`/`PTime`/`FTime`
(the only exported mutators), so they are state transformers. -/

inductive VErr where
  | requiredClaimMissing (claim : List Char)
  | expired
  | usedBeforeIssued
  | invalidAudience
  | notValidYet
  | invalidIssuer
  | invalidSubject
  | customErr (tag : Nat)
  deriving DecidableEq, Repr

structure VState where
  leeway : Int
  timeFunc : Nat → Int
  now : Int
  calls : Nat

/-- `Validator.Now`: return the cached time if set, otherwise consult the
clock once, cache and return it. -/
def VState.nowS (v : VState) : Int × VState :=
  if v.now ≠ 0 then (v.now, v)
  else
    let t := v.timeFunc v.calls
    (t, { v with now := t, calls := v.calls + 1 })

/-- `Validator.PTime`: current time minus the leeway. -/
def VState.ptimeS (v : VState) : Int × VState :=
  let (t, v') := v.nowS
  (t - v.leeway, v')

/-- `Validator.FTime`: current time plus the leeway. -/
def VState.ftimeS (v : VState) : Int × VState :=
  let (t, v') := v.nowS
  (t + v.leeway, v')

/-- `ValidatorFunc`: a rule mapping validator state and claims to a new
state and an optional error. -/
def VFun (α : Type) := VState → α → VState × Option VErr

structure Validator (α : Type) where
  st : VState
  validators : List (VFun α)

/-- The `Claims` interface: the seven claim accessors.  Times are `Int`
with 0 as the zero (absent) time, strings are char lists. -/
structure ClaimsC (α : Type) where
  getKeyID : α → List Char
  getExpirationTime : α → Int
  getIssuedAt : α → Int
  getNotBefore : α → Int
  getIssuer : α → List Char
  getSubject : α → List Char
  getAudience : α → List (List Char)

def errorIfRequired (required : Bool) (claim : List Char) : Option VErr :=
  if required then some (.requiredClaimMissing claim) else none

def errorIfFalse (value : Bool) (e : VErr) : Option VErr :=
  if value then none else some e

/-- `subtle.ConstantTimeCompare` applied to the two strings' bytes:
returns 1 exactly when lengths and contents agree, i.e. when the strings
are equal (only the returned value is modelled; the constant-time
execution property itself is a timing property outside the embedding). -/
def constantTimeCompare (x y : List Char) : Nat :=
  if x = y then 1 else 0

/-- The expiration rule (`WithVerifyExpiration`). -/
def withVerifyExpiration (C : ClaimsC α) (required : Bool) : VFun α := fun v c =>
  let exp := C.getExpirationTime c
  if exp = 0 then (v, errorIfRequired required "exp".toList)
  else
    let (pt, v') := v.ptimeS
    (v', errorIfFalse (decide (pt < exp)) .expired)

/-- The audience rule (`WithRequireAudience`).  The Go loop computes
`result` (some entry compares equal to the expected audience) and
`nonEmpty` (some entry is a non-empty string) over every entry without
short-circuiting; only the resulting values are observable. -/
def withRequireAudience (C : ClaimsC α) (required : Bool) (audience : List Char) :
    VFun α := fun v c =>
  let aud := C.getAudience c
  if aud.length = 0 then (v, errorIfRequired required "aud".toList)
  else
    let result := aud.any (fun a => constantTimeCompare a audience ≠ 0)
    let nonEmpty := aud.any (fun a => a ≠ [])
    if !nonEmpty then (v, errorIfRequired required "aud".toList)
    else (v, errorIfFalse result .invalidAudience)

/-- The rule loop of `Validator.Validate`: run every rule in order,
threading the validator state, collecting the errors of the failing
rules. -/
def validateAux (rules : List (VFun α)) (st : VState) (c : α) : VState × List VErr :=
  match rules with
  | [] => (st, [])
  | r :: rs =>
      let (st', e) := r st c
      let (st'', es) := validateAux rs st' c
      (st'', e.toList ++ es)

/-- `Validator.Validate`: run every rule, then the claims value's own
`Validate` method when the dynamic type implements `ClaimsValidator`
(`selfVal = some f`), and join the collected errors (`errors.Join`
returns success exactly when the list is empty). -/
def Validator.validate (v : Validator α) (selfVal : Option (α → Option VErr)) (c : α) :
    VState × List VErr :=
  let (st', es) := validateAux v.validators v.st c
  (st', es ++ (match selfVal with | some f => (f c).toList | none => []))

/-! ## Token model and wire encoding -/

/-- The fixed type tag (`Type = "BWT"`). -/
def typeTag : List Char := "BWT".toList

structure Token (α : Type) where
  algorithm : Option Algorithm
  claims : Option α
  tag : List Nat

/-- `Token.Prefix`: the authenticated context `"BWT_" + name`. -/
def algContext (alg : Algorithm) : List Char := typeTag ++ '_' :: alg.name

inductive AuthE where
  | codecErr
  | nilAlgorithm
  | algErr (e : AErr)
  deriving DecidableEq, Repr

/-- `Token.Authenticate`: serialize the claims, compute the tag over
context and body, store it on the token and produce the wire string.
A token without claims or algorithm set is modelled as the corresponding
failure (`codecErr` / `nilAlgorithm`); tokens built with `New` always
carry both.  On an `Auth` failure Go's multi-assignment leaves a nil
tag on the token. -/
def authenticate (marshal : α → Option (List Nat)) (t : Token α) (key : KeyV) :
    Token α × Except AuthE (List Char) :=
  match t.claims.bind marshal with
  | none => (t, .error .codecErr)
  | some body =>
      match t.algorithm with
      | none => (t, .error .nilAlgorithm)
      | some alg =>
          let ctx := algContext alg
          match alg.auth ctx body key with
          | .error e => ({ t with tag := [] }, .error (.algErr e))
          | .ok tg =>
              ({ t with tag := tg },
               .ok (ctx ++ '.' :: (Encode body ++ '.' :: Encode tg)))

/-! ## Parser -/

/-- The error kinds of the parse pipeline (`ErrTokenMalformed`,
`ErrTokenUnverifiable`, `ErrTokenTagInvalid`, `ErrTokenInvalidClaims`);
the payloads carry the joined causes relevant to the claims. -/
inductive PErr where
  | malformed
  | unverifiable
  | tagInvalid (e : AErr)
  | invalidClaims (es : List VErr)
  deriving DecidableEq, Repr

/-- `Raw`: the split segments and the decoded claims bytes. -/
structure Raw where
  parts : List (List Char)
  claims : List Nat
  deriving DecidableEq, Repr

/-- `ParseUnverified`: split on `.` (3 segments), check the `BWT_<alg>`
shape of segment 0, resolve the algorithm, then base64-decode and
deserialize segment 1.  The unknown-algorithm exit happens before the
claims segment is touched.  `raw.Claims, err = Decode(raw.Parts[1])` is a
multi-assignment: the (possibly partial) decoded bytes are stored in the
raw result even when decoding fails. -/
def parseUnverified (P : CryptoPrims) (unmarshal : List Nat → Option α) (s : List Char) :
    Option (Token α) × Raw × Option PErr :=
  let parts := splitDot s
  if parts.length ≠ 3 then (none, ⟨parts, []⟩, some .malformed)
  else
    match cutUnderscore (parts.getD 0 []) with
    | (typ, alg, okb) =>
        if okb = false ∨ typ ≠ typeTag ∨ alg = [] then (none, ⟨parts, []⟩, some .malformed)
        else
          match GetAlgorithm P alg with
          | none => (some ⟨none, none, []⟩, ⟨parts, []⟩, some .unverifiable)
          | some algo =>
              let dec := DecodePartial (parts.getD 1 [])
              if dec.2 then (some ⟨some algo, none, []⟩, ⟨parts, dec.1⟩, some .malformed)
              else
                match unmarshal dec.1 with
                | none => (some ⟨some algo, none, []⟩, ⟨parts, dec.1⟩, some .malformed)
                | some c => (some ⟨some algo, some c, []⟩, ⟨parts, dec.1⟩, none)

/-- `KeyfuncFrom`: a key-resolution callback that always returns the same
key. -/
def keyfuncFrom (key : KeyV) : Token α → Except Unit KeyV := fun _ => .ok key

/-- `Parser.ParseWithClaims`: structural parse, tag decode, key
resolution, tag verification, claims validation.
`token.Tag, err = Decode(raw.Parts[2])` is a multi-assignment: the token
keeps whatever (possibly partial) bytes the tag decode produced, also
when decoding fails with the malformed error.  The branches marked
unreachable cover shapes `parseUnverified` never returns on its success
path. -/
def parseWithClaims (P : CryptoPrims) (unmarshal : List Nat → Option α)
    (s : List Char) (keyFunc : Option (Token α → Except Unit KeyV))
    (validator : Option (Validator α)) (selfVal : Option (α → Option VErr)) :
    Option (Token α) × Option PErr :=
  match parseUnverified P unmarshal s with
  | (tok?, _, some e) => (tok?, some e)
  | (tok?, raw, none) =>
      match tok? with
      | none => (none, some .malformed)
      | some tok =>
          let dec := DecodePartial (raw.parts.getD 2 [])
          let tok2 := { tok with tag := dec.1 }
          if dec.2 then (some tok2, some .malformed)
          else
            match keyFunc with
            | none => (some tok2, some .unverifiable)
            | some kf =>
                match kf tok2 with
                | .error _ => (some tok2, some .unverifiable)
                | .ok key =>
                    match tok2.algorithm, tok2.claims with
                    | some alg, some c =>
                        match alg.verify (algContext alg) raw.claims key dec.1 with
                        | .error e => (some tok2, some (.tagInvalid e))
                        | .ok _ =>
                            match validator with
                            | none => (some tok2, none)
                            | some v =>
                                let es := (v.validate selfVal c).2
                                if es = [] then (some tok2, none)
                                else (some tok2, some (.invalidClaims es))
                    | _, _ => (none, some .malformed)

/-! ## ClaimsMap

`ClaimsMap` is `map[string]any`; Go maps have unique keys, modelled as an
association list looked up by first match.  `AnyV` enumerates the dynamic
types relevant to the accessors (`string`, `time.Time`, `[]string`) plus
representatives of every other dynamic type.  `MapValue` returns the
expected type's zero value when the key is absent and performs an
unchecked type assertion `v.(V)` otherwise, which panics when the stored
value has a different dynamic type (`PanicOr.panicked`). -/

inductive AnyV where
  | vStr (s : List Char)
  | vTime (t : Int)
  | vStrs (ss : List (List Char))
  | vInt (n : Int)
  | vBool (b : Bool)
  deriving DecidableEq, Repr

abbrev ClaimsMap := List (List Char × AnyV)

def mapLookup (m : ClaimsMap) (key : List Char) : Option AnyV :=
  (m.find? (fun p => p.1 == key)).map (fun p => p.2)

inductive PanicOr (V : Type) where
  | panicked
  | value (v : V)
  deriving DecidableEq, Repr

/-- `MapValue[string]`. -/
def mapValueStr (m : ClaimsMap) (key : List Char) : PanicOr (List Char) :=
  match mapLookup m key with
  | none => .value []
  | some (.vStr s) => .value s
  | some _ => .panicked

/-- `MapValue[time.Time]` (the zero `time.Time` is the integer 0). -/
def mapValueTime (m : ClaimsMap) (key : List Char) : PanicOr Int :=
  match mapLookup m key with
  | none => .value 0
  | some (.vTime t) => .value t
  | some _ => .panicked

/-- `MapValue[[]string]`. -/
def mapValueStrs (m : ClaimsMap) (key : List Char) : PanicOr (List (List Char)) :=
  match mapLookup m key with
  | none => .value []
  | some (.vStrs ss) => .value ss
  | some _ => .panicked

namespace ClaimsMap

def GetKeyID (m : ClaimsMap) : PanicOr (List Char) := mapValueStr m "kid".toList

def GetExpirationTime (m : ClaimsMap) : PanicOr Int := mapValueTime m "exp".toList

def GetIssuedAt (m : ClaimsMap) : PanicOr Int := mapValueTime m "iat".toList

def GetNotBefore (m : ClaimsMap) : PanicOr Int := mapValueTime m "nbf".toList

def GetIssuer (m : ClaimsMap) : PanicOr (List Char) := mapValueStr m "iss".toList

def GetSubject (m : ClaimsMap) : PanicOr (List Char) := mapValueStr m "sub".toList

def GetAudience (m : ClaimsMap) : PanicOr (List (List Char)) := mapValueStrs m "aud".toList

end ClaimsMap

def AnyV.isStr : AnyV → Bool
  | .vStr _ => true
  | _ => false

def AnyV.isTime : AnyV → Bool
  | .vTime _ => true
  | _ => false

def AnyV.isStrs : AnyV → Bool
  | .vStrs _ => true
  | _ => false

/-! ## Concrete instantiation of the external primitives

Used to evaluate the development on closed inputs: any instantiation is
legitimate, as the repository treats the primitives as opaque. -/

def trivPrims : CryptoPrims where
  hmac256 := fun _ _ => List.replicate 32 0
  hmac384 := fun _ _ => List.replicate 48 0
  hmac512 := fun _ _ => List.replicate 64 0
  edSign := fun _ _ => List.replicate 64 0
  edVerify := fun _ _ _ => true

/-- A concrete `Claims` dictionary over `Int` claims whose expiration time
is the claims value itself. -/
def expClaims : ClaimsC Int where
  getKeyID := fun _ => []
  getExpirationTime := fun x => x
  getIssuedAt := fun _ => 0
  getNotBefore := fun _ => 0
  getIssuer := fun _ => []
  getSubject := fun _ => []
  getAudience := fun _ => []

/-- A concrete `Claims` dictionary whose audience list is the claims value
itself. -/
def audClaims : ClaimsC (List (List Char)) where
  getKeyID := fun _ => []
  getExpirationTime := fun _ => 0
  getIssuedAt := fun _ => 0
  getNotBefore := fun _ => 0
  getIssuer := fun _ => []
  getSubject := fun _ => []
  getAudience := fun ss => ss

/-! ## Claim theorems -/

/-- C4: For both built-in algorithm families, `Verify` distinguishes
deterministic error conditions and never panics (the verifiers are total
functions): a key of the wrong dynamic type yields the invalid-key-type
error; an EdDSA public key of the wrong length yields the invalid-key
error; a tag whose length differs from the hash output size (HMAC) or the
signature size (EdDSA) yields the tag-invalid error; and only a
well-formed tag that fails the cryptographic check yields the wrong-tag
error. -/
theorem c4_verify_error_taxonomy
    (fn : List Nat → List Nat → List Nat) (size : Nat)
    (edv : List Nat → List Nat → List Nat → Bool)
    (ctx : List Char) (body : List Nat) (key : KeyV) (tag : List Nat) :
    ((∀ b, key ≠ .bytes b) →
        hmacVerify fn size true ctx body key tag = .error .invalidKeyType)
  ∧ (∀ kb, key = .bytes kb → tag.length ≠ size →
        hmacVerify fn size true ctx body key tag = .error .tagInvalid)
  ∧ (∀ kb, key = .bytes kb → tag.length = size →
        (hmacVerify fn size true ctx body key tag = .ok () ↔
          tag = fn kb (strBytes ctx ++ body))
        ∧ (tag ≠ fn kb (strBytes ctx ++ body) →
            hmacVerify fn size true ctx body key tag = .error .wrongTag))
  ∧ (hmacVerify fn size true ctx body key tag = .error .wrongTag →
        ∃ kb, key = .bytes kb ∧ tag.length = size ∧ tag ≠ fn kb (strBytes ctx ++ body))
  ∧ ((∀ b, key ≠ .edPub b) →
        edAlgoVerify edv ctx body key tag = .error .invalidKeyType)
  ∧ (∀ pk, key = .edPub pk → pk.length ≠ 32 →
        edAlgoVerify edv ctx body key tag = .error .invalidKey)
  ∧ (∀ pk, key = .edPub pk → pk.length = 32 → tag.length ≠ 64 →
        edAlgoVerify edv ctx body key tag = .error .tagInvalid)
  ∧ (∀ pk, key = .edPub pk → pk.length = 32 → tag.length = 64 →
        (edAlgoVerify edv ctx body key tag = .ok () ↔
          edv pk (strBytes ctx ++ body) tag = true)
        ∧ (edv pk (strBytes ctx ++ body) tag = false →
            edAlgoVerify edv ctx body key tag = .error .wrongTag))
  ∧ (edAlgoVerify edv ctx body key tag = .error .wrongTag →
        ∃ pk, key = .edPub pk ∧ pk.length = 32 ∧ tag.length = 64 ∧
          edv pk (strBytes ctx ++ body) tag = false) := by
  refine ⟨?_, ?_, ?_, ?_, ?_, ?_, ?_, ?_, ?_⟩
  · intro h
    cases key with
    | bytes b => exact absurd rfl (h b)
    | edPub b => rfl
    | edPriv b => rfl
    | other t => rfl
  · rintro kb rfl hlen
    simp [hmacVerify, keyAsBytes, hlen]
  · rintro kb rfl hlen
    constructor
    · simp only [hmacVerify, keyAsBytes, hlen, if_neg (by omega : ¬tag.length ≠ size)]
      split <;> simp_all
    · intro hne
      simp [hmacVerify, keyAsBytes, hlen, hne]
  · intro h
    cases key with
    | bytes kb =>
        refine ⟨kb, rfl, ?_⟩
        by_cases hlen : tag.length = size
        · refine ⟨hlen, ?_⟩
          intro heq
          rw [heq] at hlen
          simp [hmacVerify, keyAsBytes, heq, hlen] at h
        · simp [hmacVerify, keyAsBytes, hlen] at h
    | edPub b => simp [hmacVerify, keyAsBytes] at h
    | edPriv b => simp [hmacVerify, keyAsBytes] at h
    | other t => simp [hmacVerify, keyAsBytes] at h
  · intro h
    cases key with
    | edPub b => exact absurd rfl (h b)
    | bytes b => rfl
    | edPriv b => rfl
    | other t => rfl
  · rintro pk rfl hlen
    simp [edAlgoVerify, keyAsEdPub, hlen]
  · rintro pk rfl hpk hlen
    simp [edAlgoVerify, keyAsEdPub, hpk, hlen]
  · rintro pk rfl hpk hlen
    constructor
    · simp only [edAlgoVerify, keyAsEdPub, if_neg (by omega : ¬pk.length ≠ 32),
        if_neg (by omega : ¬tag.length ≠ 64)]
      split <;> simp_all
    · intro hfail
      simp [edAlgoVerify, keyAsEdPub, hpk, hlen, hfail]
  · intro h
    cases key with
    | edPub pk =>
        refine ⟨pk, rfl, ?_⟩
        by_cases hpk : pk.length = 32
        · by_cases hlen : tag.length = 64
          · refine ⟨hpk, hlen, ?_⟩
            by_cases hv : edv pk (strBytes ctx ++ body) tag = true
            · simp [edAlgoVerify, keyAsEdPub, hpk, hlen, hv] at h
            · simpa using hv
          · simp [edAlgoVerify, keyAsEdPub, hpk, hlen] at h
        · simp [edAlgoVerify, keyAsEdPub, hpk] at h
    | bytes b => simp [edAlgoVerify, keyAsEdPub] at h
    | edPriv b => simp [edAlgoVerify, keyAsEdPub] at h
    | other t => simp [edAlgoVerify, keyAsEdPub] at h

theorem c4_verify_error_taxonomy_witness :
    hmacVerify (fun _ _ => List.replicate 32 0) 32 true [] [] (.edPub []) []
      = .error .invalidKeyType
  ∧ edAlgoVerify (fun _ _ _ => true) [] [] (.bytes []) [] = .error .invalidKeyType
  ∧ edAlgoVerify (fun _ _ _ => true) [] [] (.edPub [0]) (List.replicate 64 0)
      = .error .invalidKey
  ∧ hmacVerify (fun _ _ => List.replicate 32 0) 32 true [] [] (.bytes []) [0]
      = .error .tagInvalid :=
  ⟨(c4_verify_error_taxonomy (fun _ _ => List.replicate 32 0) 32 (fun _ _ _ => true)
      [] [] (.edPub []) []).1 (fun b h => KeyV.noConfusion h),
   (c4_verify_error_taxonomy (fun _ _ => List.replicate 32 0) 32 (fun _ _ _ => true)
      [] [] (.bytes []) []).2.2.2.2.1 (fun b h => KeyV.noConfusion h),
   (c4_verify_error_taxonomy (fun _ _ => List.replicate 32 0) 32 (fun _ _ _ => true)
      [] [] (.edPub [0]) (List.replicate 64 0)).2.2.2.2.2.1 [0] rfl (by decide),
   (c4_verify_error_taxonomy (fun _ _ => List.replicate 32 0) 32 (fun _ _ _ => true)
      [] [] (.bytes []) [0]).2.1 [] rfl (by decide)⟩

/-- C7: the expiration rule errors on an absent (zero) expiration time
exactly when the required flag is set; otherwise it succeeds exactly
when `now - leeway < exp` (strictly), failing with the token-expired
error when `now - leeway ≥ exp`. -/
theorem c7_expiration_rule (C : ClaimsC α) (required : Bool) (v : VState) (c : α) :
    (C.getExpirationTime c = 0 →
      (withVerifyExpiration C required v c).2 =
        (if required then some (.requiredClaimMissing "exp".toList) else none))
  ∧ (C.getExpirationTime c ≠ 0 →
      ((withVerifyExpiration C required v c).2 = none ↔
        v.nowS.1 - v.leeway < C.getExpirationTime c)
      ∧ (¬ v.nowS.1 - v.leeway < C.getExpirationTime c →
        (withVerifyExpiration C required v c).2 = some .expired)) := by
  constructor
  · intro h0
    simp [withVerifyExpiration, h0, errorIfRequired]
  · intro hne
    rcases hnv : v.nowS with ⟨t, v'⟩
    have hpt : v.ptimeS = (t - v.leeway, v') := by
      simp [VState.ptimeS, hnv]
    constructor
    · simp only [withVerifyExpiration, if_neg hne, hpt, errorIfFalse, hnv]
      split <;> simp_all
    · intro hge
      simp only [Prod.fst] at hge
      simp [withVerifyExpiration, if_neg hne, hpt, errorIfFalse, hge]

theorem c7_expiration_rule_witness :
    (withVerifyExpiration expClaims true ⟨0, fun _ => 3, 0, 0⟩ 0).2
      = some (.requiredClaimMissing "exp".toList)
  ∧ (withVerifyExpiration expClaims true ⟨0, fun _ => 3, 0, 0⟩ 5).2 = none
  ∧ (withVerifyExpiration expClaims true ⟨0, fun _ => 3, 0, 0⟩ 2).2 = some .expired := by
  refine ⟨?_, ?_, ?_⟩
  · have := (c7_expiration_rule expClaims true ⟨0, fun _ => 3, 0, 0⟩ 0).1 (by decide)
    simpa using this
  · exact ((c7_expiration_rule expClaims true ⟨0, fun _ => 3, 0, 0⟩ 5).2 (by decide)).1.mpr
      (by norm_num [VState.nowS, expClaims])
  · exact ((c7_expiration_rule expClaims true ⟨0, fun _ => 3, 0, 0⟩ 2).2 (by decide)).2
      (by norm_num [VState.nowS, expClaims])

/-- C8: the audience rule treats an absent/empty list, and a list whose
every entry is the empty string, as absent (error exactly when required);
otherwise it succeeds exactly when some entry equals the expected
audience string (the comparison function returns non-zero exactly on
equality), failing with the invalid-audience error otherwise. -/
theorem c8_audience_rule (C : ClaimsC α) (required : Bool) (audience : List Char)
    (v : VState) (c : α) :
    ((C.getAudience c = [] ∨ ∀ a ∈ C.getAudience c, a = []) →
      (withRequireAudience C required audience v c).2 =
        (if required then some (.requiredClaimMissing "aud".toList) else none))
  ∧ ((∃ a ∈ C.getAudience c, a ≠ []) →
      ((withRequireAudience C required audience v c).2 = none ↔
        ∃ a ∈ C.getAudience c, a = audience)
      ∧ ((withRequireAudience C required audience v c).2 ≠ none →
        (withRequireAudience C required audience v c).2 = some .invalidAudience)) := by
  have hct : ∀ a : List Char, constantTimeCompare a audience ≠ 0 ↔ a = audience := by
    intro a
    by_cases h : a = audience <;> simp [constantTimeCompare, h]
  constructor
  · rintro (h0 | hall)
    · simp [withRequireAudience, h0, errorIfRequired]
    · rcases haud : C.getAudience c with _ | ⟨a0, rest⟩
      · simp [withRequireAudience, haud, errorIfRequired]
      · rw [haud] at hall
        have h1 : a0 = [] := hall a0 (by simp)
        have h2 : ∀ x ∈ rest, x = [] := fun x hx => hall x (by simp [hx])
        simp [withRequireAudience, haud, errorIfRequired, h1]
        rw [if_pos h2]
  · rintro ⟨a0, ha0, ha0ne⟩
    have hlen : (C.getAudience c).length ≠ 0 := by
      intro h
      rw [List.length_eq_zero] at h
      rw [h] at ha0
      exact absurd ha0 (List.not_mem_nil a0)
    have hne : ((C.getAudience c).any fun a => decide (a ≠ ([] : List Char))) = true := by
      simp only [List.any_eq_true, decide_eq_true_eq]
      exact ⟨a0, ha0, ha0ne⟩
    constructor
    · simp only [withRequireAudience, if_neg hlen, hne, Bool.not_true,
        Bool.false_eq_true, if_false, errorIfFalse]
      constructor
      · intro h
        split at h
        · rename_i hany
          simp only [List.any_eq_true, decide_eq_true_eq] at hany
          obtain ⟨a, ha, hct'⟩ := hany
          exact ⟨a, ha, (hct a).mp hct'⟩
        · exact absurd h (by simp)
      · rintro ⟨a, ha, haeq⟩
        have hany : ((C.getAudience c).any
            fun x => decide (constantTimeCompare x audience ≠ 0)) = true := by
          simp only [List.any_eq_true, decide_eq_true_eq]
          exact ⟨a, ha, (hct a).mpr haeq⟩
        simp only [hany, if_true]
    · intro h
      simp only [withRequireAudience, if_neg hlen, hne, Bool.not_true,
        Bool.false_eq_true, if_false, errorIfFalse] at h ⊢
      split at h
      · exact absurd rfl h
      · rename_i hcond
        rw [if_neg hcond]

theorem c8_audience_rule_witness :
    (withRequireAudience audClaims true "b".toList ⟨0, fun _ => 3, 0, 0⟩
        ["a".toList, "b".toList]).2 = none
  ∧ (withRequireAudience audClaims true "c".toList ⟨0, fun _ => 3, 0, 0⟩
        ["a".toList, "b".toList]).2 = some .invalidAudience
  ∧ (withRequireAudience audClaims true "c".toList ⟨0, fun _ => 3, 0, 0⟩
        [[], []]).2 = some (.requiredClaimMissing "aud".toList) := by
  refine ⟨?_, ?_, ?_⟩
  · exact ((c8_audience_rule audClaims true "b".toList ⟨0, fun _ => 3, 0, 0⟩
      ["a".toList, "b".toList]).2 ⟨"a".toList, by simp [audClaims], by simp⟩).1.mpr
      ⟨"b".toList, by simp [audClaims], rfl⟩
  · refine ((c8_audience_rule audClaims true "c".toList ⟨0, fun _ => 3, 0, 0⟩
      ["a".toList, "b".toList]).2 ⟨"a".toList, by simp [audClaims], by simp⟩).2 ?_
    intro h
    have := ((c8_audience_rule audClaims true "c".toList ⟨0, fun _ => 3, 0, 0⟩
      ["a".toList, "b".toList]).2 ⟨"a".toList, by simp [audClaims], by simp⟩).1.mp h
    revert this
    decide
  · have := (c8_audience_rule audClaims true "c".toList ⟨0, fun _ => 3, 0, 0⟩
      [[], []]).1 (Or.inr (by decide))
    simpa using this

theorem mapValueStr_spec (m : ClaimsMap) (key : List Char) :
    (mapLookup m key = none → mapValueStr m key = .value [])
  ∧ (∀ v, mapLookup m key = some v → v.isStr = false → mapValueStr m key = .panicked) := by
  constructor
  · intro h
    simp [mapValueStr, h]
  · intro v hv hs
    cases v <;> simp_all [mapValueStr, AnyV.isStr]

theorem mapValueTime_spec (m : ClaimsMap) (key : List Char) :
    (mapLookup m key = none → mapValueTime m key = .value 0)
  ∧ (∀ v, mapLookup m key = some v → v.isTime = false → mapValueTime m key = .panicked) := by
  constructor
  · intro h
    simp [mapValueTime, h]
  · intro v hv hs
    cases v <;> simp_all [mapValueTime, AnyV.isTime]

theorem mapValueStrs_spec (m : ClaimsMap) (key : List Char) :
    (mapLookup m key = none → mapValueStrs m key = .value [])
  ∧ (∀ v, mapLookup m key = some v → v.isStrs = false → mapValueStrs m key = .panicked) := by
  constructor
  · intro h
    simp [mapValueStrs, h]
  · intro v hv hs
    cases v <;> simp_all [mapValueStrs, AnyV.isStrs]

/-- C10: the `ClaimsMap` accessors are not total at the public interface:
when the well-known key is absent they return the expected type's zero
value, but when the key holds a value of a different dynamic type the
unchecked type assertion panics instead of returning an error or the zero
value. -/
theorem c10_claims_map_accessors (m : ClaimsMap) :
    (mapLookup m "kid".toList = none → m.GetKeyID = .value [])
  ∧ (∀ v, mapLookup m "kid".toList = some v → v.isStr = false → m.GetKeyID = .panicked)
  ∧ (mapLookup m "exp".toList = none → m.GetExpirationTime = .value 0)
  ∧ (∀ v, mapLookup m "exp".toList = some v → v.isTime = false →
      m.GetExpirationTime = .panicked)
  ∧ (mapLookup m "iat".toList = none → m.GetIssuedAt = .value 0)
  ∧ (∀ v, mapLookup m "iat".toList = some v → v.isTime = false → m.GetIssuedAt = .panicked)
  ∧ (mapLookup m "nbf".toList = none → m.GetNotBefore = .value 0)
  ∧ (∀ v, mapLookup m "nbf".toList = some v → v.isTime = false → m.GetNotBefore = .panicked)
  ∧ (mapLookup m "iss".toList = none → m.GetIssuer = .value [])
  ∧ (∀ v, mapLookup m "iss".toList = some v → v.isStr = false → m.GetIssuer = .panicked)
  ∧ (mapLookup m "sub".toList = none → m.GetSubject = .value [])
  ∧ (∀ v, mapLookup m "sub".toList = some v → v.isStr = false → m.GetSubject = .panicked)
  ∧ (mapLookup m "aud".toList = none → m.GetAudience = .value [])
  ∧ (∀ v, mapLookup m "aud".toList = some v → v.isStrs = false →
      m.GetAudience = .panicked) :=
  ⟨(mapValueStr_spec m _).1, (mapValueStr_spec m _).2,
   (mapValueTime_spec m _).1, (mapValueTime_spec m _).2,
   (mapValueTime_spec m _).1, (mapValueTime_spec m _).2,
   (mapValueTime_spec m _).1, (mapValueTime_spec m _).2,
   (mapValueStr_spec m _).1, (mapValueStr_spec m _).2,
   (mapValueStr_spec m _).1, (mapValueStr_spec m _).2,
   (mapValueStrs_spec m _).1, (mapValueStrs_spec m _).2⟩

theorem c10_claims_map_accessors_witness :
    ClaimsMap.GetKeyID [("kid".toList, AnyV.vInt 3)] = .panicked
  ∧ ClaimsMap.GetExpirationTime [("exp".toList, AnyV.vStr "soon".toList)] = .panicked
  ∧ ClaimsMap.GetAudience ([] : ClaimsMap) = .value [] :=
  ⟨(c10_claims_map_accessors [("kid".toList, AnyV.vInt 3)]).2.1
      (AnyV.vInt 3) (by decide) rfl,
   (c10_claims_map_accessors [("exp".toList, AnyV.vStr "soon".toList)]).2.2.2.1
      (AnyV.vStr "soon".toList) (by decide) rfl,
   (c10_claims_map_accessors ([] : ClaimsMap)).2.2.2.2.2.2.2.2.2.2.2.2.1 rfl⟩

/-- The per-rule outcomes of the rule loop: one entry per registered
rule, evaluated in order on the threaded validator state. -/
def runRules (rules : List (VFun α)) (st : VState) (c : α) :
    VState × List (Option VErr) :=
  match rules with
  | [] => (st, [])
  | r :: rs =>
      let (st', e) := r st c
      let (st'', es) := runRules rs st' c
      (st'', e :: es)

theorem validateAux_runRules (rules : List (VFun α)) (st : VState) (c : α) :
    validateAux rules st c =
      ((runRules rules st c).1, (runRules rules st c).2.reduceOption) := by
  induction rules generalizing st with
  | nil => rfl
  | cons r rs ih =>
      rcases hr : r st c with ⟨st', e⟩
      simp only [validateAux, runRules, hr, ih st']
      cases e <;> simp [List.reduceOption_cons_of_some]

/-- C6: a single `Validate` call runs every registered rule
unconditionally (one outcome per rule, in order, no short-circuit), then
the claims value's self-validation if it exposes one; it succeeds exactly
when every rule outcome and the self-check succeeded, and on failure the
aggregate error list contains every individual rule failure. -/
theorem c6_validate_aggregates (rules : List (VFun α)) (st : VState)
    (selfVal : Option (α → Option VErr)) (c : α) :
    (Validator.validate ⟨st, rules⟩ selfVal c).1 = (runRules rules st c).1
  ∧ (Validator.validate ⟨st, rules⟩ selfVal c).2 =
      (runRules rules st c).2.reduceOption ++
        (match selfVal with | some f => (f c).toList | none => [])
  ∧ (runRules rules st c).2.length = rules.length
  ∧ ((Validator.validate ⟨st, rules⟩ selfVal c).2 = [] ↔
      (∀ e ∈ (runRules rules st c).2, e = none) ∧
      (∀ f, selfVal = some f → f c = none)) := by
  have hlen : ∀ (rs : List (VFun α)) (s : VState), (runRules rs s c).2.length = rs.length := by
    intro rs
    induction rs with
    | nil => intro s; rfl
    | cons r rs ih =>
        intro s
        rcases hr : r s c with ⟨s', e⟩
        simp [runRules, hr, ih]
  have hv : Validator.validate ⟨st, rules⟩ selfVal c =
      ((runRules rules st c).1,
        (runRules rules st c).2.reduceOption ++
          (match selfVal with | some f => (f c).toList | none => [])) := by
    simp [Validator.validate, validateAux_runRules]
  refine ⟨by rw [hv], by rw [hv], hlen rules st, ?_⟩
  rw [hv]
  simp only [List.append_eq_nil]
  constructor
  · rintro ⟨hred, hself⟩
    constructor
    · intro e he
      rcases e with _ | ⟨err⟩
      · rfl
      · exact absurd (List.reduceOption_mem_iff.mpr he) (by simp [hred])
    · intro f hf
      rw [hf] at hself
      cases hfc : f c with
      | none => rfl
      | some e => simp [hfc] at hself
  · rintro ⟨hall, hself⟩
    constructor
    · rw [List.eq_nil_iff_forall_not_mem]
      intro x hx
      have := List.reduceOption_mem_iff.mp hx
      exact Option.noConfusion (hall (some x) this)
    · cases selfVal with
      | none => rfl
      | some f => simp [hself f rfl]

theorem c6_validate_aggregates_witness :
    (Validator.validate ⟨⟨0, fun _ => 3, 0, 0⟩,
        [fun v _ => (v, some (.customErr 1)), fun v _ => (v, some (.customErr 2))]⟩
      (some fun _ => some (.customErr 3)) (0 : Int)).2
      = [.customErr 1, .customErr 2, .customErr 3] := by
  have := (c6_validate_aggregates
      [fun v (_ : Int) => (v, some (.customErr 1)), fun v _ => (v, some (.customErr 2))]
      ⟨0, fun _ => 3, 0, 0⟩ (some fun _ => some (.customErr 3)) 0).2.1
  rw [this]
  rfl

/-! ### C9: time-function caching -/

/-- The exported time operations a rule (or any caller) can perform on a
validator between or during `Validate` calls. -/
inductive TOp where
  | tnow
  | tptime
  | tftime
  deriving DecidableEq, Repr

def stepTOp (v : VState) : TOp → Int × VState
  | .tnow => v.nowS
  | .tptime => v.ptimeS
  | .tftime => v.ftimeS

def runTOps : List TOp → VState → List Int × VState
  | [], v => ([], v)
  | op :: ops, v =>
      let (t, v') := stepTOp v op
      let (ts, v'') := runTOps ops v'
      (t :: ts, v'')

theorem nowS_cached (v : VState) (h : v.now ≠ 0) : v.nowS = (v.now, v) := by
  simp [VState.nowS, h]

theorem runTOps_cached (ops : List TOp) (v : VState) (h : v.now ≠ 0) :
    runTOps ops v = (ops.map (fun op => match op with
      | .tnow => v.now
      | .tptime => v.now - v.leeway
      | .tftime => v.now + v.leeway), v) := by
  induction ops with
  | nil => rfl
  | cons op ops ih =>
      have hstep : stepTOp v op = ((match op with
          | .tnow => v.now
          | .tptime => v.now - v.leeway
          | .tftime => v.now + v.leeway), v) := by
        cases op <;>
          simp [stepTOp, VState.nowS, VState.ptimeS, VState.ftimeS, h, nowS_cached]
      simp [runTOps, hstep, ih]

/-- C9 counterexample: a validator whose configured time function returns
the zero time on its first consultation defeats the `IsZero` cache
sentinel: the second `Now` call consults the time function again
(two consultations) and returns a different, refreshed timestamp. -/
theorem c9_counterexample :
    ((⟨0, fun n => if n = 0 then 0 else 7, 0, 0⟩ : VState).nowS.1 = 0)
  ∧ ((⟨0, fun n => if n = 0 then 0 else 7, 0, 0⟩ : VState).nowS.2.nowS.1 = 7)
  ∧ ((⟨0, fun n => if n = 0 then 0 else 7, 0, 0⟩ : VState).nowS.2.nowS.2.calls = 2) := by
  refine ⟨?_, ?_, ?_⟩ <;> rfl

/-- C9 amended: provided the time function returns a non-zero timestamp
when first consulted, the first `Now` call consults it exactly once and
caches the result, and every later `Now`/`PTime`/`FTime` call — in any
order and number, including those made by rules of later `Validate`
calls — returns a value derived from that identical cached timestamp
without consulting the time function again (the state, including the
consultation counter, never changes again). -/
theorem c9_time_cached (v : VState) (ops : List TOp)
    (h0 : v.now = 0) (hnz : v.timeFunc v.calls ≠ 0) :
    v.nowS.1 = v.timeFunc v.calls
  ∧ v.nowS.2.calls = v.calls + 1
  ∧ v.nowS.2.now = v.timeFunc v.calls
  ∧ runTOps ops v.nowS.2 =
      (ops.map (fun op => match op with
        | .tnow => v.timeFunc v.calls
        | .tptime => v.timeFunc v.calls - v.leeway
        | .tftime => v.timeFunc v.calls + v.leeway), v.nowS.2) := by
  have hv : v.nowS = (v.timeFunc v.calls,
      { v with now := v.timeFunc v.calls, calls := v.calls + 1 }) := by
    simp [VState.nowS, h0]
  refine ⟨by rw [hv], by rw [hv], by rw [hv], ?_⟩
  rw [hv]
  exact runTOps_cached ops _ hnz

theorem c9_time_cached_witness :
    (⟨0, fun _ => 3, 0, 0⟩ : VState).nowS.1 = 3
  ∧ (⟨0, fun _ => 3, 0, 0⟩ : VState).nowS.2.calls = 1
  ∧ runTOps [.tnow, .tptime, .tnow] (⟨0, fun _ => 3, 0, 0⟩ : VState).nowS.2 =
      ([3, 3, 3], (⟨0, fun _ => 3, 0, 0⟩ : VState).nowS.2) := by
  have h := c9_time_cached (⟨0, fun _ => 3, 0, 0⟩ : VState) [.tnow, .tptime, .tnow]
    rfl (by norm_num)
  exact ⟨h.1, h.2.1, h.2.2.2⟩

/-! ### C5: the malformed conditions of the structural parse -/

/-- C5 counterexample: a wire string whose claims segment fails base64url
decoding but whose algorithm name is unregistered yields unverifiable,
not malformed — so "malformed exactly when ... or the claims segment
fails decoding" is false as stated. -/
theorem c5_counterexample :
    Decode ((splitDot "BWT_XXX.%.x".toList).getD 1 []) = none
  ∧ (parseUnverified trivPrims (fun _ => some (0 : Nat)) "BWT_XXX.%.x".toList).2.2
      = some .unverifiable
  ∧ (parseUnverified trivPrims (fun _ => some (0 : Nat)) "BWT_XXX.%.x".toList).2.2
      ≠ some .malformed := by
  refine ⟨by decide, by decide, by decide⟩

/-- C5 amended: the structural parse returns the malformed error exactly
when the string does not split on `.` into exactly 3 parts, or the first
part cut on the first `_` does not have left side `"BWT"`, or the
algorithm-name right side is empty, or the algorithm name resolves to a
registered algorithm and the claims segment fails base64url decoding or
claims deserialization. -/
theorem c5_malformed_iff (P : CryptoPrims) (unmarshal : List Nat → Option α)
    (s : List Char) :
    (parseUnverified P unmarshal s).2.2 = some .malformed ↔
      ((splitDot s).length ≠ 3
       ∨ (cutUnderscore ((splitDot s).getD 0 [])).2.2 = false
       ∨ (cutUnderscore ((splitDot s).getD 0 [])).1 ≠ typeTag
       ∨ (cutUnderscore ((splitDot s).getD 0 [])).2.1 = []
       ∨ ((GetAlgorithm P (cutUnderscore ((splitDot s).getD 0 [])).2.1).isSome = true
          ∧ (Decode ((splitDot s).getD 1 []) = none
             ∨ ∃ cb, Decode ((splitDot s).getD 1 []) = some cb ∧ unmarshal cb = none))) := by
  rcases hcut : cutUnderscore ((splitDot s).getD 0 []) with ⟨typ, rest⟩
  rcases rest with ⟨alg, okb⟩
  simp only [parseUnverified, hcut]
  by_cases h3 : (splitDot s).length ≠ 3
  · simp only [if_pos h3]
    simp [h3]
  · simp only [if_neg h3]
    push_neg at h3
    by_cases hbad : okb = false ∨ typ ≠ typeTag ∨ alg = []
    · simp only [if_pos hbad]
      refine iff_of_true (by trivial) ?_
      rcases hbad with hb | hb | hb
      · exact Or.inr (Or.inl hb)
      · exact Or.inr (Or.inr (Or.inl hb))
      · exact Or.inr (Or.inr (Or.inr (Or.inl hb)))
    · simp only [if_neg hbad]
      push_neg at hbad
      rcases hga : GetAlgorithm P alg with _ | algo
      · refine iff_of_false (by simp) ?_
        rintro (h | h | h | h | ⟨hsome, _⟩)
        · exact h h3
        · exact hbad.1 h
        · exact h hbad.2.1
        · exact hbad.2.2 h
        · simp at hsome
      · dsimp only
        rcases hdec : DecodePartial ((splitDot s).getD 1 []) with ⟨bs, e⟩
        have hag := DecodePartial_agree ((splitDot s).getD 1 [])
        rw [hdec] at hag
        cases e
        · simp only [Bool.false_eq_true, if_false] at hag
          dsimp only
          rcases hunm : unmarshal bs with _ | cv
          · refine iff_of_true (by trivial) ?_
            exact Or.inr (Or.inr (Or.inr (Or.inr ⟨by simp, Or.inr ⟨bs, hag, hunm⟩⟩)))
          · refine iff_of_false (by simp) ?_
            rintro (h | h | h | h | ⟨hsome, hd | ⟨cb', hcb', hu⟩⟩)
            · exact h h3
            · exact hbad.1 h
            · exact h hbad.2.1
            · exact hbad.2.2 h
            · rw [hag] at hd
              exact Option.noConfusion hd
            · rw [hag] at hcb'
              obtain rfl : cb' = bs := (Option.some_inj.mp hcb').symm
              rw [hu] at hunm
              exact Option.noConfusion hunm
        · simp only [if_pos rfl] at hag
          dsimp only
          refine iff_of_true (by trivial) ?_
          exact Or.inr (Or.inr (Or.inr (Or.inr ⟨by simp, Or.inl hag⟩)))

/-! ### C2: unknown algorithm -/

/-- C2 counterexample: on a three-segment wire string with an unregistered
algorithm name the structural parse yields unverifiable, but it returns
before decoding the claims segment: the returned token's claims are
unfilled (`none`) even though the segment decodes and deserializes fine
(the supplied deserializer would have produced `7`). -/
theorem c2_counterexample :
    (parseUnverified trivPrims (fun _ => some (7 : Nat)) "BWT_XXX.AA.AA".toList).2.2
      = some .unverifiable
  ∧ ((parseUnverified trivPrims (fun _ => some (7 : Nat)) "BWT_XXX.AA.AA".toList).1.map
      Token.claims) = some none
  ∧ (parseUnverified trivPrims (fun _ => some (7 : Nat)) "BWT_XXX.AA.AA".toList).2.1.claims
      = []
  ∧ Decode "AA".toList = some [0]
  ∧ (fun _ => some (7 : Nat)) [0] = some 7 :=
  ⟨by decide, by decide, by decide, by decide, rfl⟩

/-- C2 amended: a syntactically well-formed wire string whose algorithm
name is not registered yields the unverifiable error (a distinct error
kind from malformed), but the unverified parse returns before touching
the claims segment: the supplied claims container is left unfilled and no
claims bytes are decoded. -/
theorem c2_unknown_algorithm (P : CryptoPrims) (unmarshal : List Nat → Option α)
    (name seg1 seg2 : List Char)
    (hn : '.' ∉ name) (h1 : '.' ∉ seg1) (h2 : '.' ∉ seg2) (hne : name ≠ [])
    (hreg : GetAlgorithm P name = none) :
    parseUnverified P unmarshal (("BWT_".toList ++ name) ++ '.' :: (seg1 ++ '.' :: seg2))
      = (some ⟨none, none, []⟩,
         ⟨["BWT_".toList ++ name, seg1, seg2], []⟩, some .unverifiable)
  ∧ PErr.unverifiable ≠ PErr.malformed := by
  have hp : '.' ∉ "BWT_".toList ++ name := by
    intro hc
    rcases List.mem_append.mp hc with h | h
    · exact absurd h (by decide)
    · exact hn h
  have hsplit := splitDot_wire ("BWT_".toList ++ name) seg1 seg2 hp h1 h2
  refine ⟨?_, by simp⟩
  simp only [parseUnverified, hsplit]
  have hlen : ¬(([("BWT_".toList ++ name), seg1, seg2] : List (List Char)).length ≠ 3) := by
    simp
  rw [if_neg hlen]
  simp only [List.getD_cons_zero]
  rw [cutUnderscore_bwt]
  dsimp only
  have hcond : ¬(true = false ∨ "BWT".toList ≠ typeTag ∨ name = []) := by
    push_neg
    exact ⟨by simp, by simp [typeTag], hne⟩
  rw [if_neg hcond, hreg]

theorem c2_unknown_algorithm_witness :
    parseUnverified trivPrims (fun _ => some (0 : Nat))
        (("BWT_".toList ++ "XYZ".toList) ++ '.' :: ("AA".toList ++ '.' :: "AB".toList))
      = (some ⟨none, none, []⟩,
         ⟨["BWT_".toList ++ "XYZ".toList, "AA".toList, "AB".toList], []⟩,
         some .unverifiable)
  ∧ PErr.unverifiable ≠ PErr.malformed :=
  c2_unknown_algorithm trivPrims (fun _ => some 0) "XYZ".toList "AA".toList "AB".toList
    (by decide) (by decide) (by decide) (by decide) (by rfl)

/-! ### C3: when the tag field is populated -/

theorem parseUnverified_tag_nil (P : CryptoPrims) (unmarshal : List Nat → Option α)
    (s : List Char) (tok : Token α) :
    (parseUnverified P unmarshal s).1 = some tok → tok.tag = [] := by
  rcases hcut : cutUnderscore ((splitDot s).getD 0 []) with ⟨typ, rest⟩
  rcases rest with ⟨alg, okb⟩
  simp only [parseUnverified, hcut]
  by_cases h3 : (splitDot s).length ≠ 3
  · rw [if_pos h3]
    intro h
    exact Option.noConfusion h
  · rw [if_neg h3]
    by_cases hbad : okb = false ∨ typ ≠ typeTag ∨ alg = []
    · rw [if_pos hbad]
      intro h
      exact Option.noConfusion h
    · rw [if_neg hbad]
      rcases hga : GetAlgorithm P alg with _ | algo
      · dsimp only
        intro h
        exact (Option.some_inj.mp h) ▸ rfl
      · dsimp only
        rcases hdec : DecodePartial ((splitDot s).getD 1 []) with ⟨bs, e⟩
        cases e
        · dsimp only
          rcases hunm : unmarshal bs with _ | cv
          · intro h
            exact (Option.some_inj.mp h) ▸ rfl
          · intro h
            exact (Option.some_inj.mp h) ▸ rfl
        · dsimp only
          intro h
          exact (Option.some_inj.mp h) ▸ rfl

/-- C3 counterexample: a structurally valid wire string parsed with a nil
keyfunc returns the unverifiable error together with a token whose tag is
the decoded, non-empty tag segment — so "whenever the full parse pipeline
returns an error, the token it leaves behind has an empty tag" is false:
the tag survives every post-decode failure. -/
theorem c3_counterexample :
    ((parseWithClaims trivPrims (fun _ => some (0 : Nat)) "BWT_HS256.AA.AA".toList
        none none none).1.map Token.tag) = some [0]
  ∧ (parseWithClaims trivPrims (fun _ => some (0 : Nat)) "BWT_HS256.AA.AA".toList
        none none none).2 = some .unverifiable :=
  ⟨by decide, by decide⟩

/-- C3 amended: the tag is empty whenever `Token.Authenticate` fails
starting from a token with an empty tag, and whenever the parse pipeline
fails during the unverified structural parse (before tag decoding);
once the structural parse has succeeded, the returned token's tag is
exactly the byte sequence the tag-segment decode produced — the
partially decoded prefix (possibly non-empty) when tag decoding itself
fails with the malformed error, and the fully decoded tag when a later
stage (unverifiable key resolution, tag verification, claims validation)
fails. -/
theorem c3_tag_emptiness (α : Type) :
    (∀ (marshal : α → Option (List Nat)) (t : Token α) (key : KeyV),
      t.tag = [] → (∀ w, (authenticate marshal t key).2 ≠ .ok w) →
      (authenticate marshal t key).1.tag = [])
  ∧ (∀ (P : CryptoPrims) (unmarshal : List Nat → Option α) (s : List Char)
      (keyFunc : Option (Token α → Except Unit KeyV)) (validator : Option (Validator α))
      (selfVal : Option (α → Option VErr)) (tok : Token α),
      (parseUnverified P unmarshal s).2.2 ≠ none →
      (parseWithClaims P unmarshal s keyFunc validator selfVal).1 = some tok →
      tok.tag = [])
  ∧ (∀ (P : CryptoPrims) (unmarshal : List Nat → Option α) (s : List Char)
      (keyFunc : Option (Token α → Except Unit KeyV)) (validator : Option (Validator α))
      (selfVal : Option (α → Option VErr)) (tok : Token α),
      (parseUnverified P unmarshal s).2.2 = none →
      (parseWithClaims P unmarshal s keyFunc validator selfVal).1 = some tok →
      tok.tag = (DecodePartial ((parseUnverified P unmarshal s).2.1.parts.getD 2 [])).1) := by
  refine ⟨?_, ?_, ?_⟩
  · intro marshal t key ht herr
    rcases hb : t.claims.bind marshal with _ | body
    · simp [authenticate, hb, ht]
    · rcases halg : t.algorithm with _ | alg
      · simp [authenticate, hb, halg, ht]
      · rcases hauth : alg.auth (algContext alg) body key with e | tg
        · simp [authenticate, hb, halg, hauth]
        · exact absurd (show (authenticate marshal t key).2
              = .ok (algContext alg ++ '.' :: (Encode body ++ '.' :: Encode tg)) from by
            simp [authenticate, hb, halg, hauth]) (herr _)
  · intro P unmarshal s keyFunc validator selfVal tok hne htok
    rcases hpu : parseUnverified P unmarshal s with ⟨tok?, raw, err?⟩
    rw [hpu] at hne
    rcases err? with _ | e
    · exact absurd rfl hne
    · simp only [parseWithClaims, hpu] at htok
      exact parseUnverified_tag_nil P unmarshal s tok (by rw [hpu]; exact htok)
  · intro P unmarshal s keyFunc validator selfVal tok hnone htok
    rcases hpu : parseUnverified P unmarshal s with ⟨tok?, raw, err?⟩
    rw [hpu] at hnone
    dsimp only at hnone
    subst hnone
    dsimp only
    simp only [parseWithClaims, hpu] at htok
    rcases tok? with _ | tk
    · dsimp only at htok
      exact Option.noConfusion htok
    · dsimp only at htok
      rcases hdec : DecodePartial (raw.parts.getD 2 []) with ⟨bs, e⟩
      rw [hdec] at htok
      dsimp only at htok ⊢
      cases e
      · simp only [Bool.false_eq_true, if_false] at htok
        rcases keyFunc with _ | kf
        · dsimp only at htok
          exact (Option.some_inj.mp htok) ▸ rfl
        · dsimp only at htok
          rcases hkf : kf { tk with tag := bs } with ke | key
          · rw [hkf] at htok
            dsimp only at htok
            exact (Option.some_inj.mp htok) ▸ rfl
          · rw [hkf] at htok
            dsimp only at htok
            rcases halg : tk.algorithm with _ | alg
            · rw [halg] at htok
              dsimp only at htok
              exact Option.noConfusion htok
            · rw [halg] at htok
              rcases hclm : tk.claims with _ | c
              · rw [hclm] at htok
                dsimp only at htok
                exact Option.noConfusion htok
              · rw [hclm] at htok
                dsimp only at htok
                rcases hver : alg.verify (algContext alg) raw.claims key bs with ve | vu
                · rw [hver] at htok
                  dsimp only at htok
                  exact (Option.some_inj.mp htok) ▸ rfl
                · rw [hver] at htok
                  dsimp only at htok
                  rcases validator with _ | v
                  · exact (Option.some_inj.mp htok) ▸ rfl
                  · dsimp only at htok
                    by_cases hes : (v.validate selfVal c).2 = []
                    · rw [if_pos hes] at htok
                      exact (Option.some_inj.mp htok) ▸ rfl
                    · rw [if_neg hes] at htok
                      exact (Option.some_inj.mp htok) ▸ rfl
      · simp only [if_pos rfl] at htok
        exact (Option.some_inj.mp htok) ▸ rfl

theorem c3_tag_emptiness_witness :
    (authenticate (fun _ => (none : Option (List Nat)))
      (⟨none, some (0 : Nat), []⟩ : Token Nat) (.bytes [])).1.tag = []
  ∧ (Token.mk (some (HS256 trivPrims)) (some (0 : Nat)) [0, 0, 0]).tag
      = (DecodePartial ((parseUnverified trivPrims (fun _ => some (0 : Nat))
          "BWT_HS256.AA.AAAAA".toList).2.1.parts.getD 2 [])).1
  ∧ (parseWithClaims trivPrims (fun _ => some (0 : Nat)) "BWT_HS256.AA.AAAAA".toList
      none none none).2 = some .malformed
  ∧ DecodePartial "AAAAA".toList = ([0, 0, 0], true) :=
  ⟨(c3_tag_emptiness Nat).1 (fun _ => none) ⟨none, some 0, []⟩ (.bytes []) rfl
      (fun w h => by simp [authenticate] at h),
   (c3_tag_emptiness Nat).2.2 trivPrims (fun _ => some 0) "BWT_HS256.AA.AAAAA".toList
      none none none ⟨some (HS256 trivPrims), some 0, [0, 0, 0]⟩ (by decide) rfl,
   by decide, by decide⟩

/-! ### C1: round trip -/

/-- Round trip through the full pipeline for any registered algorithm
whose `Auth`/`Verify` pair succeeds on the produced tag: `Authenticate`
yields a wire string that `ParseWithClaims` (with a key-resolution
callback returning the verification key and the default rule-free
validator) parses back to the original claims. -/
theorem parseWithClaims_authenticate
    (P : CryptoPrims) (marshal : α → Option (List Nat)) (unmarshal : List Nat → Option α)
    (c : α) (body : List Nat) (algo : Algorithm)
    (key vkey : KeyV) (tg : List Nat) (clock : Nat → Int)
    (selfVal : Option (α → Option VErr))
    (hms : marshal c = some body) (hbody : ∀ x ∈ body, x < 256)
    (hdotname : '.' ∉ algo.name) (hnil : algo.name ≠ [])
    (hreg : GetAlgorithm P algo.name = some algo)
    (hum : unmarshal body = some c)
    (hauth : algo.auth (algContext algo) body key = .ok tg)
    (htg : ∀ x ∈ tg, x < 256)
    (hver : algo.verify (algContext algo) body vkey tg = .ok ())
    (hsv : ∀ f, selfVal = some f → f c = none) :
    authenticate marshal ⟨some algo, some c, []⟩ key
      = (⟨some algo, some c, tg⟩,
         .ok (algContext algo ++ '.' :: (Encode body ++ '.' :: Encode tg)))
  ∧ parseWithClaims P unmarshal
      (algContext algo ++ '.' :: (Encode body ++ '.' :: Encode tg))
      (some (keyfuncFrom vkey)) (some ⟨⟨0, clock, 0, 0⟩, []⟩) selfVal
      = (some ⟨some algo, some c, tg⟩, none) := by
  have hA : authenticate marshal ⟨some algo, some c, []⟩ key
      = (⟨some algo, some c, tg⟩,
         .ok (algContext algo ++ '.' :: (Encode body ++ '.' :: Encode tg))) := by
    simp [authenticate, hms, hauth]
  refine ⟨hA, ?_⟩
  have hpfx : '.' ∉ algContext algo := by
    intro hc
    rcases List.mem_append.mp hc with h | h
    · exact absurd h (by decide)
    · rcases List.mem_cons.mp h with h' | h'
      · exact absurd h' (by decide)
      · exact hdotname h'
  have hsplit := splitDot_wire (algContext algo) (Encode body) (Encode tg) hpfx
    (Encode_no_dot body hbody) (Encode_no_dot tg htg)
  have hcut : cutUnderscore (algContext algo) = ("BWT".toList, algo.name, true) :=
    cutUnderscore_bwt algo.name
  have hPU : parseUnverified P unmarshal
      (algContext algo ++ '.' :: (Encode body ++ '.' :: Encode tg))
      = (some ⟨some algo, some c, []⟩,
         ⟨[algContext algo, Encode body, Encode tg], body⟩, none) := by
    simp only [parseUnverified, hsplit]
    rw [if_neg (by simp)]
    simp only [List.getD_cons_zero]
    rw [hcut]
    dsimp only
    rw [if_neg (by push_neg; exact ⟨by simp, by simp [typeTag], hnil⟩), hreg]
    dsimp only
    simp only [List.getD_cons_succ, List.getD_cons_zero]
    rw [DecodePartial_Encode body hbody]
    dsimp only
    simp only [Bool.false_eq_true, if_false]
    rw [hum]
  simp only [parseWithClaims, hPU]
  simp only [List.getD_cons_succ, List.getD_cons_zero]
  rw [DecodePartial_Encode tg htg]
  dsimp only
  simp only [Bool.false_eq_true, if_false]
  dsimp only [keyfuncFrom]
  rw [hver]
  dsimp only
  have hval : (Validator.validate (⟨⟨0, clock, 0, 0⟩, []⟩ : Validator α) selfVal c).2
      = [] := by
    rcases selfVal with _ | f
    · rfl
    · simp [Validator.validate, validateAux, hsv f rfl]
  rw [if_pos hval]

/-- `Verify` accepts what `Auth` produced, for the keyed-hash family. -/
theorem hmacVerify_auth_ok (fn : List Nat → List Nat → List Nat) (size : Nat)
    (hfn : ∀ key msg, (fn key msg).length = size)
    (ctx : List Char) (body : List Nat) (k : List Nat) :
    hmacVerify fn size true ctx body (.bytes k) (fn k (strBytes ctx ++ body)) = .ok () := by
  simp [hmacVerify, keyAsBytes, hfn k (strBytes ctx ++ body)]

/-- `Verify` accepts what `Auth` produced, for the signature family. -/
theorem edVerify_sign_ok (signFn : List Nat → List Nat → List Nat)
    (verifyFn : List Nat → List Nat → List Nat → Bool) (sk pk : List Nat)
    (hpk : pk.length = 32)
    (hsig : ∀ msg, (signFn sk msg).length = 64)
    (hcorr : ∀ msg, verifyFn pk msg (signFn sk msg) = true)
    (ctx : List Char) (body : List Nat) :
    edAlgoVerify verifyFn ctx body (.edPub pk) (signFn sk (strBytes ctx ++ body))
      = .ok () := by
  simp [edAlgoVerify, keyAsEdPub, hpk, hsig (strBytes ctx ++ body),
    hcorr (strBytes ctx ++ body)]

def c1CexWire : List Char :=
  "BWT_HS256.AQ.AAAAAAAAAAAAAAAAAAAAAAAAAAAAAAAAAAAAAAAAAAA".toList

/-- C1 counterexample: the default parse pipeline runs the (rule-free)
validator, which invokes the claims object's own self-validation when
its dynamic type exposes one; a claims object whose self-validation
rejects breaks the round trip even with the matching key: `Authenticate`
succeeds but parsing its output fails with invalid-claims. -/
theorem c1_counterexample :
    (authenticate (fun _ : Nat => some [1]) ⟨some (HS256 trivPrims), some 0, []⟩
        (.bytes [])).2.toOption = some c1CexWire
  ∧ (parseWithClaims trivPrims (fun _ => some (0 : Nat)) c1CexWire
      (some (keyfuncFrom (.bytes []))) (some ⟨⟨0, fun _ => 0, 0, 0⟩, []⟩)
      (some fun _ => some (.customErr 0))).2 = some (.invalidClaims [.customErr 0]) :=
  ⟨by decide, by decide⟩

/-- C1 amended: for every claims object and every key valid for the
algorithm — any byte-sequence key for the keyed-hash family, a matching
Ed25519 key pair for EdDSA — provided the claims object's self-validation
(if it exposes one) accepts the claims, parsing the wire string produced
by `Token.Authenticate` with a key-resolution callback returning the
verification key succeeds and yields the claims the codec round-trips
(equal to the original modulo codec-representable precision, which the
codec hypotheses `hms`/`hum` express); and in particular
`Verify(ctx, body, key, Auth(ctx, body, key))` succeeds for identical
context and body under both families. -/
theorem c1_round_trip
    (P : CryptoPrims) (marshal : α → Option (List Nat)) (unmarshal : List Nat → Option α)
    (c : α) (body : List Nat) (clock : Nat → Int) (selfVal : Option (α → Option VErr))
    (k sk pk : List Nat)
    (hms : marshal c = some body) (hbody : ∀ x ∈ body, x < 256)
    (hum : unmarshal body = some c)
    (hsv : ∀ f, selfVal = some f → f c = none)
    (h256 : ∀ key msg, (P.hmac256 key msg).length = 32 ∧ ∀ x ∈ P.hmac256 key msg, x < 256)
    (h384 : ∀ key msg, (P.hmac384 key msg).length = 48 ∧ ∀ x ∈ P.hmac384 key msg, x < 256)
    (h512 : ∀ key msg, (P.hmac512 key msg).length = 64 ∧ ∀ x ∈ P.hmac512 key msg, x < 256)
    (hsk : sk.length = 64) (hpk : pk.length = 32)
    (hsig : ∀ msg, (P.edSign sk msg).length = 64 ∧ ∀ x ∈ P.edSign sk msg, x < 256)
    (hcorr : ∀ msg, P.edVerify pk msg (P.edSign sk msg) = true) :
    (∀ ctx bd tg, hmacAuth P.hmac256 true ctx bd (.bytes k) = .ok tg →
        hmacVerify P.hmac256 32 true ctx bd (.bytes k) tg = .ok ())
  ∧ (∀ ctx bd tg, edAlgoAuth P.edSign ctx bd (.edPriv sk) = .ok tg →
        edAlgoVerify P.edVerify ctx bd (.edPub pk) tg = .ok ())
  ∧ (∃ w, (authenticate marshal ⟨some (HS256 P), some c, []⟩ (.bytes k)).2 = .ok w
      ∧ (parseWithClaims P unmarshal w (some (keyfuncFrom (.bytes k)))
          (some ⟨⟨0, clock, 0, 0⟩, []⟩) selfVal).2 = none
      ∧ ((parseWithClaims P unmarshal w (some (keyfuncFrom (.bytes k)))
          (some ⟨⟨0, clock, 0, 0⟩, []⟩) selfVal).1.map Token.claims) = some (some c))
  ∧ (∃ w, (authenticate marshal ⟨some (HS384 P), some c, []⟩ (.bytes k)).2 = .ok w
      ∧ (parseWithClaims P unmarshal w (some (keyfuncFrom (.bytes k)))
          (some ⟨⟨0, clock, 0, 0⟩, []⟩) selfVal).2 = none
      ∧ ((parseWithClaims P unmarshal w (some (keyfuncFrom (.bytes k)))
          (some ⟨⟨0, clock, 0, 0⟩, []⟩) selfVal).1.map Token.claims) = some (some c))
  ∧ (∃ w, (authenticate marshal ⟨some (HS512 P), some c, []⟩ (.bytes k)).2 = .ok w
      ∧ (parseWithClaims P unmarshal w (some (keyfuncFrom (.bytes k)))
          (some ⟨⟨0, clock, 0, 0⟩, []⟩) selfVal).2 = none
      ∧ ((parseWithClaims P unmarshal w (some (keyfuncFrom (.bytes k)))
          (some ⟨⟨0, clock, 0, 0⟩, []⟩) selfVal).1.map Token.claims) = some (some c))
  ∧ (∃ w, (authenticate marshal ⟨some (EdDSA P), some c, []⟩ (.edPriv sk)).2 = .ok w
      ∧ (parseWithClaims P unmarshal w (some (keyfuncFrom (.edPub pk)))
          (some ⟨⟨0, clock, 0, 0⟩, []⟩) selfVal).2 = none
      ∧ ((parseWithClaims P unmarshal w (some (keyfuncFrom (.edPub pk)))
          (some ⟨⟨0, clock, 0, 0⟩, []⟩) selfVal).1.map Token.claims) = some (some c)) := by
  have hmacVA : ∀ (fn : List Nat → List Nat → List Nat) (size : Nat),
      (∀ key msg, (fn key msg).length = size ∧ ∀ x ∈ fn key msg, x < 256) →
      ∀ ctx bd tg, hmacAuth fn true ctx bd (.bytes k) = .ok tg →
        hmacVerify fn size true ctx bd (.bytes k) tg = .ok () := by
    intro fn size hfn ctx bd tg h
    have htg : fn k (strBytes ctx ++ bd) = tg := by
      simpa [hmacAuth, keyAsBytes] using h
    subst htg
    simp [hmacVerify, keyAsBytes, (hfn k (strBytes ctx ++ bd)).1]
  have edVA : ∀ ctx bd tg, edAlgoAuth P.edSign ctx bd (.edPriv sk) = .ok tg →
      edAlgoVerify P.edVerify ctx bd (.edPub pk) tg = .ok () := by
    intro ctx bd tg h
    have htg : P.edSign sk (strBytes ctx ++ bd) = tg := by
      simpa [edAlgoAuth, keyAsEdPriv, hsk] using h
    subst htg
    simp [edAlgoVerify, keyAsEdPub, hpk, (hsig (strBytes ctx ++ bd)).1,
      hcorr (strBytes ctx ++ bd)]
  have hroundH : ∀ (fn : List Nat → List Nat → List Nat) (size : Nat)
      (name : List Char), '.' ∉ name → name ≠ [] →
      (∀ key msg, (fn key msg).length = size ∧ ∀ x ∈ fn key msg, x < 256) →
      GetAlgorithm P (hmacAlgo name fn size).name = some (hmacAlgo name fn size) →
      (∃ w, (authenticate marshal ⟨some (hmacAlgo name fn size), some c, []⟩
            (.bytes k)).2 = .ok w
        ∧ (parseWithClaims P unmarshal w (some (keyfuncFrom (.bytes k)))
            (some ⟨⟨0, clock, 0, 0⟩, []⟩) selfVal).2 = none
        ∧ ((parseWithClaims P unmarshal w (some (keyfuncFrom (.bytes k)))
            (some ⟨⟨0, clock, 0, 0⟩, []⟩) selfVal).1.map Token.claims)
              = some (some c)) := by
    intro fn size name hdot hnil hfn hreg
    have halgo := parseWithClaims_authenticate P marshal unmarshal c body
      (hmacAlgo name fn size) (.bytes k) (.bytes k)
      (fn k (strBytes (algContext (hmacAlgo name fn size)) ++ body)) clock selfVal
      hms hbody hdot hnil hreg hum rfl
      (hfn k _).2
      (hmacVerify_auth_ok fn size (fun key msg => (hfn key msg).1)
        (algContext (hmacAlgo name fn size)) body k)
      hsv
    refine ⟨_, by rw [halgo.1], by rw [halgo.2], by rw [halgo.2]; rfl⟩
  refine ⟨hmacVA P.hmac256 32 h256, edVA, ?_, ?_, ?_, ?_⟩
  · exact hroundH P.hmac256 32 "HS256".toList (by decide) (by decide) h256 rfl
  · exact hroundH P.hmac384 48 "HS384".toList (by decide) (by decide) h384 rfl
  · exact hroundH P.hmac512 64 "HS512".toList (by decide) (by decide) h512 rfl
  · have halgo := parseWithClaims_authenticate P marshal unmarshal c body
      (EdDSA P) (.edPriv sk) (.edPub pk)
      (P.edSign sk (strBytes (algContext (EdDSA P)) ++ body)) clock selfVal
      hms hbody (by show '.' ∉ "EDDSA".toList; decide)
      (by show ("EDDSA".toList : List Char) ≠ []; decide) rfl hum
      (by simp [EdDSA, edAlgo, edAlgoAuth, keyAsEdPriv, hsk])
      (hsig _).2
      (edVerify_sign_ok P.edSign P.edVerify sk pk hpk (fun msg => (hsig msg).1) hcorr
        (algContext (EdDSA P)) body)
      hsv
    exact ⟨_, by rw [halgo.1], by rw [halgo.2], by rw [halgo.2]; rfl⟩

theorem c1_round_trip_witness :
    hmacVerify trivPrims.hmac256 32 true [] [] (.bytes []) (List.replicate 32 0) = .ok ()
  ∧ (∃ w, (authenticate (fun _ : Nat => some [1]) ⟨some (HS256 trivPrims), some 0, []⟩
        (.bytes [])).2 = .ok w
      ∧ (parseWithClaims trivPrims (fun _ => some (0 : Nat)) w
          (some (keyfuncFrom (.bytes []))) (some ⟨⟨0, fun _ => 0, 0, 0⟩, []⟩) none).2 = none
      ∧ ((parseWithClaims trivPrims (fun _ => some (0 : Nat)) w
          (some (keyfuncFrom (.bytes []))) (some ⟨⟨0, fun _ => 0, 0, 0⟩, []⟩) none).1.map
          Token.claims) = some (some 0)) := by
  have h := c1_round_trip trivPrims (fun _ => some [1]) (fun _ => some (0 : Nat)) 0 [1]
    (fun _ => 0) none [] (List.replicate 64 0) (List.replicate 32 0)
    rfl (by decide) rfl (fun f hf => Option.noConfusion hf)
    (fun key msg => ⟨by simp [trivPrims], by simp [trivPrims]⟩)
    (fun key msg => ⟨by simp [trivPrims], by simp [trivPrims]⟩)
    (fun key msg => ⟨by simp [trivPrims], by simp [trivPrims]⟩)
    (by simp) (by simp)
    (fun msg => ⟨by simp [trivPrims], by simp [trivPrims]⟩)
    (fun msg => rfl)
  exact ⟨h.1 [] [] (List.replicate 32 0) rfl, h.2.2.1⟩

end BWT
